import Mathlib

/-!
Verification of the fixed-width (UTF-16 code unit) string core of
`vt-utils` (`src/utils/ustring.cpp`).

The C++ class `vt_utils::ustring` stores its code units in a
`std::vector<uint16_t> _str` that always carries a trailing zero sentinel.
We embed the class as a one-field structure over `List Nat`, each element
standing for one 16-bit code unit, and translate every public operation of
the source file.  `size_t` values are embedded as `Nat`; the two places
where the width of `size_t` is observable (the `npos` constant `~0` and the
overflow check inside `substr`) use the explicit constants below.
-/

namespace VtUtils

/-- The modulus of the 64-bit `size_t` arithmetic used by the source. -/
def size_t_mod : Nat := 2 ^ 64

/-- The largest `size_t` value, `std::numeric_limits<size_t>::max()`. -/
def size_t_max : Nat := 2 ^ 64 - 1

/-- Embedding of `vt_utils::ustring`: the backing store `_str`
(`std::vector<uint16_t>`), one `Nat` per 16-bit code unit. -/
structure ustring where
  _str : List Nat
deriving DecidableEq

namespace ustring

/-- `const size_t ustring::npos = ~0;` — all bits set in a 64-bit `size_t`. -/
def npos : Nat := size_t_max

/-- Modelled from the spec: the accessor `length()` lives in the header
`ustring.h`, which is not part of the shown material; the spec states that
the logical length is the unit count excluding the mandatory trailing zero
sentinel, so it is the storage size minus one. -/
def length (u : ustring) : Nat := u._str.length - 1

/-- Modelled from the spec: `empty()` (declared in the missing header) is
`length() == 0`. -/
def empty (u : ustring) : Bool := u.length == 0

/-- Modelled from the spec: `operator[]` (declared in the missing header) is
raw indexing into the backing store; every use in the source is in bounds,
so the default value of the total model is never observable there. -/
def get (u : ustring) (i : Nat) : Nat := u._str.getD i 0

/-- `ustring::ustring()` — the default constructor pushes the lone sentinel. -/
def emptyStr : ustring := ⟨[0]⟩

/-- `ustring::ustring(const uint16_t* s)` — copy units until the first zero
of the source array, then push the sentinel.  The source array is given as
the list of units reachable from the pointer. -/
def fromUnits (s : List Nat) : ustring :=
  ⟨s.takeWhile (fun u => u != 0) ++ [0]⟩

/-- `ustring::substr(size_t pos, size_t n)`.  The source throws
`std::out_of_range` when `pos >= length()`; we return it in `Except`.
`pos + n` is computed in `size_t` arithmetic, hence the explicit modulus. -/
def substr (u : ustring) (pos n : Nat) : Except String ustring :=
  let len := u.length
  if pos ≥ len then Except.error "pos passed to substr() was too large"
  else
    let m := if n = size_t_max ∨ (pos + n) % size_t_mod > len then len - pos else n
    Except.ok ⟨(u._str.drop pos).take m ++ [0]⟩

/-- `ustring::operator+=(uint16_t c)` — `_str.insert(_str.end() - 1, c)`:
the unit goes immediately before the final storage element. -/
def appendUnit (u : ustring) (c : Nat) : ustring :=
  ⟨u._str.dropLast ++ [c] ++ u._str.drop (u._str.length - 1)⟩

/-- `ustring::operator+=(const ustring& s)` — a no-op for an empty `s`,
otherwise `_str.insert(_str.end() - 1, s._str.begin(), s._str.end() - 1)`:
the storage of `s` except its last element goes before the final element. -/
def appendStr (u : ustring) (s : ustring) : ustring :=
  if s.empty then u
  else ⟨u._str.dropLast ++ s._str.dropLast ++ u._str.drop (u._str.length - 1)⟩

/-- `ustring::operator+(const ustring& s)` — copy `*this`, then `+=`. -/
def plus (u : ustring) (s : ustring) : ustring := u.appendStr s

/-- `ustring::operator==(const ustring& s)` — `s._str == _str`, element-wise
comparison of the full backing stores. -/
def eqOp (u : ustring) (s : ustring) : Bool := s._str == u._str

/-- Loop body of `ustring::find(uint16_t c, size_t pos)`: the `for` loop over
`j` in `[pos, len)` is embedded as structural recursion over the list of
units `_str[j]` for those `j`, with `j` carried alongside. -/
def findCharLoop (c : Nat) : List Nat → Nat → Nat
  | [], _ => npos
  | a :: rest, j => if a = c then j else findCharLoop c rest (j + 1)

/-- `ustring::find(uint16_t c, size_t pos)` — linear scan of `[pos, len)`,
`npos` when the unit is absent. -/
def findChar (u : ustring) (c : Nat) (pos : Nat) : Nat :=
  findCharLoop c ((u._str.take u.length).drop pos) pos

/-- Loop body of `ustring::find(const ustring& s, size_t pos)`: scan over
`_str[j]` for `j` in `[pos, len)` carrying the running match counter
`chars_found`.  On a full match the source returns `j - chars_found + 1`
where `chars_found` has just been incremented to `chars + 1`; since the
counter never exceeds `j` at that point, the `size_t` value equals the
`Nat` value `j + 1 - (chars + 1)` written here. -/
def findStrLoop (s : ustring) (total : Nat) : List Nat → Nat → Nat → Nat
  | [], _, _ => npos
  | a :: rest, j, chars =>
    if a = s.get chars then
      if chars + 1 = total then j + 1 - (chars + 1)
      else findStrLoop s total rest (j + 1) (chars + 1)
    else findStrLoop s total rest (j + 1) 0

/-- `ustring::find(const ustring& s, size_t pos)` — the counter-based scan,
`npos` when no full match is recorded. -/
def findStr (u : ustring) (s : ustring) (pos : Nat) : Nat :=
  findStrLoop s s.length ((u._str.take u.length).drop pos) pos 0

/-- The sentinel invariant stated by the spec: the backing store is never
empty and its last element is the zero sentinel. -/
def sentinelInv (u : ustring) : Prop :=
  u._str ≠ [] ∧ u._str.getLast? = some 0

instance (u : ustring) : Decidable u.sentinelInv :=
  inferInstanceAs (Decidable (u._str ≠ [] ∧ u._str.getLast? = some 0))

end ustring

/-- `UTF8ToUTF16(const std::string&, uint16_t*)`.  The external `iconv`
transcoder is modelled by the oracle `iconvOut`: `some conv` means the call
succeeds and writes the units `conv` to the front of the destination buffer
(it can never write more than the buffer holds), `none` means `iconv_open`
or `iconv` fails, in which case the source returns `false` without
installing any output.  The function returns the C++ return value paired
with the destination buffer after the call. -/
def UTF8ToUTF16 (source : List Nat) (iconvOut : Option (List Nat))
    (dest : List Nat) : Bool × List Nat :=
  if source.isEmpty then (true, dest)
  else
    match iconvOut with
    | none => (false, dest)
    | some conv =>
      let written := conv.take dest.length
      (true, written ++ dest.drop written.length)

/-- `MakeUnicodeString(const std::string& text)` on a little-endian host
(the `SDL_BYTEORDER == SDL_BIG_ENDIAN` swap block is compiled out there).
`ubuff` is the zero-filled `std::vector<uint16_t>` of `text.length() + 1`
units; on success the byte-order mark is skipped by advancing the pointer,
on failure the fallback loop pushes `text[c]` for `c < length` (note that
`text[text.length()]` is the terminating zero of the `std::string`) and one
more zero onto the end of `ubuff`, after its zero-filled prefix.  Finally
the pointer constructor reads units from the buffer start (respectively
from index 1 after a byte-order mark) up to the first zero. -/
def MakeUnicodeString (text : List Nat) (iconvOut : Option (List Nat)) : ustring :=
  let length := text.length + 1
  let ubuff : List Nat := List.replicate length 0
  let r := UTF8ToUTF16 text iconvOut ubuff
  if r.1 then
    let start := if r.2.getD 0 0 = 0xFEFF ∨ r.2.getD 0 0 = 0xFFFE then 1 else 0
    ustring.fromUnits (r.2.drop start)
  else
    ustring.fromUnits (r.2 ++ (List.range length).map (fun c => text.getD c 0) ++ [0])

/-- `MakeStandardString(const ustring& text)` — build `length + 1` bytes
(`strbuff`, zero-initialised so the final byte stays zero), replacing every
unit above `0xff` by the byte of the question mark and narrowing the rest
(`static_cast<unsigned char>`), then construct the result through the
C-string constructor `std::string(char*)`, which reads up to the first zero
byte. -/
def MakeStandardString (text : ustring) : List Nat :=
  let length := text.length
  let strbuff := (List.range length).map (fun c =>
    let curr := text.get c
    if curr > 0xff then 63 else curr % 256) ++ [0]
  strbuff.takeWhile (fun b => b != 0)

/-! ### Helper lemmas -/

theorem getD_append_left (l l' : List Nat) (i : Nat) (h : i < l.length) :
    (l ++ l').getD i 0 = l.getD i 0 := by
  simp [List.getD_eq_getElem?_getD, List.getElem?_append, h]

theorem getD_append_add (l l' : List Nat) (i : Nat) :
    (l ++ l').getD (l.length + i) 0 = l'.getD i 0 := by
  rw [List.getD_eq_getElem?_getD, List.getElem?_append_right (Nat.le_add_right _ _)]
  simp [List.getD_eq_getElem?_getD]

theorem getD_take_lt (l : List Nat) (n i : Nat) (h : i < n) :
    (l.take n).getD i 0 = l.getD i 0 := by
  simp [List.getD_eq_getElem?_getD, List.getElem?_take, h]

theorem getD_drop_add (l : List Nat) (n i : Nat) :
    (l.drop n).getD i 0 = l.getD (n + i) 0 := by
  simp [List.getD_eq_getElem?_getD, List.getElem?_drop]

theorem takeWhile_append_zero (p : Nat → Bool) (hp : p 0 = false)
    (xs ys : List Nat) (hxs : ∀ x ∈ xs, p x = true) :
    (xs ++ 0 :: ys).takeWhile p = xs := by
  induction xs with
  | nil => simp [List.takeWhile_cons, hp]
  | cons x xs ih =>
    have hx : p x = true := hxs x (by simp)
    simp only [List.cons_append, List.takeWhile_cons, hx, if_true]
    rw [ih (fun y hy => hxs y (by simp [hy]))]

theorem takeWhile_append_replicate_zero (p : Nat → Bool) (hp : p 0 = false)
    (xs : List Nat) (k : Nat) :
    (xs ++ List.replicate k 0).takeWhile p = xs.takeWhile p := by
  induction xs with
  | nil =>
    cases k with
    | zero => simp
    | succ k => simp [List.replicate_succ, List.takeWhile_cons, hp]
  | cons x xs ih =>
    simp only [List.cons_append, List.takeWhile_cons]
    cases hx : p x <;> simp [ih]

theorem sentinelInv_iff (u : ustring) :
    u.sentinelInv ↔ ∃ xs, u._str = xs ++ [0] := by
  constructor
  · rintro ⟨hne, hlast⟩
    rcases (List.eq_nil_or_concat u._str) with h | ⟨xs, a, h⟩
    · exact absurd h hne
    · refine ⟨xs, ?_⟩
      rw [h] at hlast ⊢
      rw [List.concat_eq_append] at hlast ⊢
      rw [List.getLast?_concat] at hlast
      injection hlast with ha
      rw [ha]
  · rintro ⟨xs, h⟩
    exact ⟨by simp [h], by simp [h, List.getLast?_concat]⟩

/-- Each narrowed byte produced by `MakeStandardString` from a non-zero code
unit is itself non-zero. -/
theorem narrow_ne_zero (a : Nat) (h : a ≠ 0) :
    ((if 0xff < a then (63 : Nat) else a % 256) != 0) = true := by
  split_ifs with hgt
  · decide
  · have hmod : a % 256 = a := Nat.mod_eq_of_lt (by omega)
    simp [hmod, h]

/-- The substring-search loop can never record a full match when the target
counter is zero: the test `chars_found == total_chars` runs only after the
increment, so the counter compared there is always positive. -/
theorem findStrLoop_total_zero (s : ustring) (l : List Nat) :
    ∀ j chars, ustring.findStrLoop s 0 l j chars = ustring.npos := by
  induction l with
  | nil => intro j chars; rfl
  | cons a rest ih =>
    intro j chars
    simp only [ustring.findStrLoop]
    split
    · rw [if_neg (by omega)]
      exact ih _ _
    · exact ih _ _

/-! ### C1 -/

/-- C1 counterexample: on the haystack with single unit 1, searching for the
empty pattern from position 0 does not return the claimed value 0. -/
theorem find_empty_pattern_claim_cex :
    ¬ ((ustring.fromUnits [1, 0]).findStr ustring.emptyStr 0 = 0) := by decide

/-- C1 (amended): for every non-empty haystack and every from with
0 ≤ from ≤ length(), find called with an empty pattern returns npos, never
from: the full-match test runs only after the counter is incremented, so a
zero target is never reached. -/
theorem find_empty_pattern_returns_npos (u : ustring) (f : Nat)
    (hne : u.empty = false) (hf : f ≤ u.length) :
    u.findStr ustring.emptyStr f = ustring.npos := by
  unfold ustring.findStr
  have h0 : ustring.emptyStr.length = 0 := rfl
  rw [h0]
  exact findStrLoop_total_zero _ _ _ _

theorem find_empty_pattern_returns_npos_witness :
    (ustring.fromUnits [1, 2, 0]).empty = false
    ∧ 1 ≤ (ustring.fromUnits [1, 2, 0]).length
    ∧ (ustring.fromUnits [1, 2, 0]).findStr ustring.emptyStr 1 = ustring.npos :=
  ⟨by decide, by decide,
    find_empty_pattern_returns_npos (ustring.fromUnits [1, 2, 0]) 1
      (by decide) (by decide)⟩

/-! ### C2 -/

/-- C2 counterexample: with A = 1 and B = 2, searching the haystack with
units 1, 1, 2 for the pattern with units 1, 2 from position 0 does not
return the claimed index 1. -/
theorem find_repeated_prefix_claim_cex :
    ¬ ((ustring.fromUnits [1, 1, 2, 0]).findStr (ustring.fromUnits [1, 2, 0]) 0 = 1) := by
  decide

/-- C2 (amended): for the haystack with logical units A, A, B and the
pattern A, B (A and B distinct non-zero units), find(pattern, 0) returns
npos: after the mismatch at index 1 the counter resets to zero, but the
scan resumes at index 2 without re-examining index 1, so the match starting
there is missed. -/
theorem find_repeated_prefix_returns_npos (A B : Nat)
    (hA : A ≠ 0) (hB : B ≠ 0) (hAB : A ≠ B) :
    (ustring.fromUnits [A, A, B, 0]).findStr (ustring.fromUnits [A, B, 0]) 0
      = ustring.npos := by
  have hA' : (A != 0) = true := bne_iff_ne.mpr hA
  have hB' : (B != 0) = true := bne_iff_ne.mpr hB
  have hH : (ustring.fromUnits [A, A, B, 0])._str = [A, A, B, 0] := by
    simp [ustring.fromUnits, List.takeWhile_cons, hA', hB']
  have hP : (ustring.fromUnits [A, B, 0])._str = [A, B, 0] := by
    simp [ustring.fromUnits, List.takeWhile_cons, hA', hB']
  have hlenH : (ustring.fromUnits [A, A, B, 0]).length = 3 := by
    simp [ustring.length, hH]
  have hlenP : (ustring.fromUnits [A, B, 0]).length = 2 := by
    simp [ustring.length, hP]
  have hg0 : (ustring.fromUnits [A, B, 0]).get 0 = A := by
    simp [ustring.get, hP]
  have hg1 : (ustring.fromUnits [A, B, 0]).get 1 = B := by
    simp [ustring.get, hP]
  have hBA : B ≠ A := Ne.symm hAB
  unfold ustring.findStr
  rw [hH, hlenH, hlenP]
  show ustring.findStrLoop (ustring.fromUnits [A, B, 0]) 2 [A, A, B] 0 0
      = ustring.npos
  simp [ustring.findStrLoop, hg0, hg1, hAB, hBA]

theorem find_repeated_prefix_returns_npos_witness :
    (1 : Nat) ≠ 0 ∧ (2 : Nat) ≠ 0 ∧ (1 : Nat) ≠ 2
    ∧ (ustring.fromUnits [1, 1, 2, 0]).findStr (ustring.fromUnits [1, 2, 0]) 0
        = ustring.npos :=
  ⟨by decide, by decide, by decide,
    find_repeated_prefix_returns_npos 1 2 (by decide) (by decide) (by decide)⟩

/-! ### C3 -/

/-- C3: when the transcoder fails, the fallback of MakeUnicodeString does
NOT produce the byte-widened input: the widened bytes are pushed after the
zero-filled prefix of ubuff, and the pointer constructor reads from the
start of the buffer, stopping at the leading zero, so the returned buffer
is always empty (backing store just the sentinel).  At the failing input
text = "ab" (bytes 97, 98) the claim expects logical length 2 with units
97 and 98; the code yields logical length 0. -/
theorem decode_fallback_returns_empty (text : List Nat) :
    (MakeUnicodeString text none)._str = [0]
    ∧ (MakeUnicodeString text none).length = 0 := by
  have hstr : (MakeUnicodeString text none)._str = [0] := by
    by_cases h : text = []
    · subst h; rfl
    · have hne : text.isEmpty = false := by
        simp [List.isEmpty_iff, h]
      unfold MakeUnicodeString UTF8ToUTF16
      simp only [hne, Bool.false_eq_true, if_false, List.replicate_succ,
        List.cons_append, ustring.fromUnits]
      simp [List.takeWhile_cons]
  exact ⟨hstr, by simp [ustring.length, hstr]⟩

/-! ### C8 -/

/-- C8: when the transcoder succeeds and the first produced code unit is
either byte-order-mark value (0xFEFF or 0xFFFE), MakeUnicodeString drops
that unit: the logical content of the result is the run of units following
the mark (up to the first zero), so the first logical unit is the unit
following the mark. -/
theorem decode_strips_bom (text conv : List Nat) (b : Nat)
    (hb : b = 0xFEFF ∨ b = 0xFFFE) (ht : text ≠ [])
    (hfit : conv.length ≤ text.length) :
    (MakeUnicodeString text (some (b :: conv)))._str
      = conv.takeWhile (fun u => u != 0) ++ [0]
    ∧ (conv.getD 0 0 ≠ 0 →
        (MakeUnicodeString text (some (b :: conv))).get 0 = conv.getD 0 0) := by
  have hne : text.isEmpty = false := by simp [List.isEmpty_iff, ht]
  have hstr : (MakeUnicodeString text (some (b :: conv)))._str
      = conv.takeWhile (fun u => u != 0) ++ [0] := by
    unfold MakeUnicodeString UTF8ToUTF16
    simp only [hne, Bool.false_eq_true, if_false]
    have htake : (b :: conv).take (List.replicate (text.length + 1) (0 : Nat)).length
        = b :: conv := by
      apply List.take_of_length_le
      simp [Nat.succ_le_succ hfit]
    simp only [htake, if_true]
    have hgd : ((b :: conv) ++
        (List.replicate (text.length + 1) (0 : Nat)).drop (b :: conv).length).getD 0 0
        = b := rfl
    rw [hgd, if_pos hb]
    have hdrop : ((b :: conv) ++
        (List.replicate (text.length + 1) (0 : Nat)).drop (b :: conv).length).drop 1
        = conv ++ (List.replicate (text.length + 1) (0 : Nat)).drop (b :: conv).length := rfl
    rw [hdrop, List.drop_replicate, ustring.fromUnits,
      takeWhile_append_replicate_zero _ rfl]
  refine ⟨hstr, fun hc0 => ?_⟩
  cases conv with
  | nil => exact absurd rfl hc0
  | cons c0 cs =>
    have hc : c0 ≠ 0 := by simpa using hc0
    have hc' : (c0 != 0) = true := bne_iff_ne.mpr hc
    simp [ustring.get, hstr, List.takeWhile_cons, hc']

theorem decode_strips_bom_witness :
    ((0xFEFF : Nat) = 0xFEFF ∨ (0xFEFF : Nat) = 0xFFFE)
    ∧ ([97, 98] : List Nat) ≠ []
    ∧ ([65, 0] : List Nat).length ≤ ([97, 98] : List Nat).length
    ∧ ((MakeUnicodeString [97, 98] (some (0xFEFF :: [65, 0])))._str
        = ([65, 0] : List Nat).takeWhile (fun u => u != 0) ++ [0]
      ∧ (([65, 0] : List Nat).getD 0 0 ≠ 0 →
          (MakeUnicodeString [97, 98] (some (0xFEFF :: [65, 0]))).get 0
            = ([65, 0] : List Nat).getD 0 0)) :=
  ⟨Or.inl rfl, by decide, by decide,
    decode_strips_bom [97, 98] [65, 0] 0xFEFF (Or.inl rfl) (by decide) (by decide)⟩

/-! ### C4 -/

/-- C4: every publicly constructible buffer satisfies the sentinel
invariant (non-empty backing store ending in the zero sentinel), and every
operation — default construction, pointer construction, substr,
concatenation, append of a unit, append of a buffer — preserves it. -/
theorem sentinel_invariant_preserved (u v w : ustring) (s : List Nat)
    (c pos n : Nat) (hu : u.sentinelInv) (hv : v.sentinelInv) :
    ustring.emptyStr.sentinelInv
    ∧ (ustring.fromUnits s).sentinelInv
    ∧ (u.substr pos n = Except.ok w → w.sentinelInv)
    ∧ (u.plus v).sentinelInv
    ∧ (u.appendUnit c).sentinelInv
    ∧ (u.appendStr v).sentinelInv := by
  obtain ⟨xs, hxs⟩ := (sentinelInv_iff u).mp hu
  obtain ⟨ys, hys⟩ := (sentinelInv_iff v).mp hv
  have hdropu : u._str.drop (u._str.length - 1) = [0] := by
    rw [hxs]
    have h1 : (xs ++ [0]).length - 1 = xs.length := by simp
    rw [h1, List.drop_left]
  have happend : (u.appendStr v).sentinelInv := by
    unfold ustring.appendStr
    split
    · exact hu
    · apply (sentinelInv_iff _).mpr
      refine ⟨xs ++ ys, ?_⟩
      simp [hxs, hys, List.dropLast_concat, hdropu]
  refine ⟨?_, ?_, ?_, happend, ?_, happend⟩
  · exact ⟨by simp [ustring.emptyStr], by simp [ustring.emptyStr]⟩
  · exact (sentinelInv_iff _).mpr ⟨_, rfl⟩
  · intro h
    simp only [ustring.substr] at h
    split at h
    · exact absurd h (by simp)
    · injection h with hw
      apply (sentinelInv_iff _).mpr
      exact ⟨_, by rw [← hw]⟩
  · apply (sentinelInv_iff _).mpr
    refine ⟨xs ++ [c], ?_⟩
    unfold ustring.appendUnit
    simp [hxs, List.dropLast_concat, hdropu]

theorem sentinel_invariant_preserved_witness :
    (ustring.fromUnits [1, 2, 0]).sentinelInv
    ∧ (ustring.fromUnits [3, 0]).sentinelInv
    ∧ (ustring.emptyStr.sentinelInv
      ∧ (ustring.fromUnits [9, 0]).sentinelInv
      ∧ ((ustring.fromUnits [1, 2, 0]).substr 1 5 = Except.ok (ustring.mk [2, 0])
          → (ustring.mk [2, 0]).sentinelInv)
      ∧ ((ustring.fromUnits [1, 2, 0]).plus (ustring.fromUnits [3, 0])).sentinelInv
      ∧ ((ustring.fromUnits [1, 2, 0]).appendUnit 7).sentinelInv
      ∧ ((ustring.fromUnits [1, 2, 0]).appendStr (ustring.fromUnits [3, 0])).sentinelInv) :=
  ⟨by decide, by decide,
    sentinel_invariant_preserved (ustring.fromUnits [1, 2, 0])
      (ustring.fromUnits [3, 0]) (ustring.mk [2, 0]) [9, 0] 7 1 5
      (by decide) (by decide)⟩

/-! ### C5 -/

theorem size_t_max_eq : size_t_max = 18446744073709551615 := by
  norm_num [size_t_max]

theorem size_t_mod_eq : size_t_mod = 18446744073709551616 := by
  norm_num [size_t_mod]

/-- C5: substr(pos, n) fails with the out-of-range error exactly when
pos ≥ length(); for pos < length() it succeeds with a buffer of logical
length min(n, length() - pos) — the rest-of-string sentinel value of n,
being larger than any length, always selects length() - pos — whose unit at
index i is the source unit at pos + i.  The side conditions keep the inputs
inside the range where the C++ is well defined: a real buffer is shorter
than the largest size_t, and pos + n does not overflow unless n is exactly
the rest-of-string sentinel. -/
theorem substr_spec (u : ustring) (pos n : Nat)
    (hlen : u.length < size_t_max)
    (hn : n = size_t_max ∨ pos + n < size_t_mod) :
    (u.length ≤ pos →
      u.substr pos n = Except.error "pos passed to substr() was too large")
    ∧ (pos < u.length → ∃ v, u.substr pos n = Except.ok v
        ∧ v.length = min n (u.length - pos)
        ∧ ∀ i, i < v.length → v.get i = u.get (pos + i)) := by
  constructor
  · intro hge
    simp only [ustring.substr]
    rw [if_pos hge]
  · intro hpos
    have hnotge : ¬ (pos ≥ u.length) := by omega
    simp only [ustring.substr]
    rw [if_neg hnotge]
    have hmaxv : size_t_max = 18446744073709551615 := size_t_max_eq
    have hmodv : size_t_mod = 18446744073709551616 := size_t_mod_eq
    have hm : (if n = size_t_max ∨ (pos + n) % size_t_mod > u.length
        then u.length - pos else n) = min n (u.length - pos) := by
      split_ifs with hcond
      · rcases hcond with hc | hc
        · omega
        · rcases hn with h | h
          · omega
          · rw [Nat.mod_eq_of_lt h] at hc
            omega
      · push_neg at hcond
        obtain ⟨hc1, hc2⟩ := hcond
        rcases hn with h | h
        · exact absurd h hc1
        · rw [Nat.mod_eq_of_lt h] at hc2
          omega
    rw [hm]
    have hveq : (ustring.mk
        (List.take (min n (u.length - pos)) (List.drop pos u._str) ++ [0])).length
        = min n (u.length - pos) := by
      simp only [ustring.length, List.length_append, List.length_take,
        List.length_drop, List.length_cons, List.length_nil]
      simp only [ustring.length] at hpos
      omega
    refine ⟨_, rfl, hveq, ?_⟩
    intro i hi
    rw [hveq] at hi
    have hitake : i < (List.take (min n (u.length - pos)) (List.drop pos u._str)).length := by
      simp only [List.length_take, List.length_drop, ustring.length]
      simp only [ustring.length] at hpos hi
      omega
    rw [ustring.get, ustring.get, getD_append_left _ _ _ hitake,
      getD_take_lt _ _ _ hi, getD_drop_add]

theorem substr_spec_witness :
    (ustring.fromUnits [1, 2, 3, 0]).length < size_t_max
    ∧ ((5 : Nat) = size_t_max ∨ 1 + 5 < size_t_mod)
    ∧ (((ustring.fromUnits [1, 2, 3, 0]).length ≤ 1 →
        (ustring.fromUnits [1, 2, 3, 0]).substr 1 5
          = Except.error "pos passed to substr() was too large")
      ∧ (1 < (ustring.fromUnits [1, 2, 3, 0]).length →
          ∃ v, (ustring.fromUnits [1, 2, 3, 0]).substr 1 5 = Except.ok v
          ∧ v.length = min 5 ((ustring.fromUnits [1, 2, 3, 0]).length - 1)
          ∧ ∀ i, i < v.length → v.get i = (ustring.fromUnits [1, 2, 3, 0]).get (1 + i))) :=
  ⟨by decide, Or.inr (by decide),
    substr_spec (ustring.fromUnits [1, 2, 3, 0]) 1 5 (by decide) (Or.inr (by decide))⟩

/-! ### C7 -/

/-- C7: concatenation adds logical lengths and lays out the units of the
left operand followed by those of the right operand; appending the empty
buffer yields a buffer equal (in the sense of the element-wise equality
operator of the class) to the original. -/
theorem concat_spec (a b : ustring) (ha : a.sentinelInv) (hb : b.sentinelInv) :
    (a.plus b).length = a.length + b.length
    ∧ (∀ i, i < a.length → (a.plus b).get i = a.get i)
    ∧ (∀ i, i < b.length → (a.plus b).get (a.length + i) = b.get i)
    ∧ (a.plus ustring.emptyStr).eqOp a = true := by
  obtain ⟨as, has⟩ := (sentinelInv_iff a).mp ha
  obtain ⟨bs, hbs⟩ := (sentinelInv_iff b).mp hb
  have hlena : a.length = as.length := by simp [ustring.length, has]
  have hlenb : b.length = bs.length := by simp [ustring.length, hbs]
  have hidentity : (a.plus ustring.emptyStr).eqOp a = true := by
    have hempty : ustring.emptyStr.empty = true := rfl
    unfold ustring.plus ustring.appendStr
    rw [if_pos hempty]
    simp [ustring.eqOp]
  by_cases hbe : bs = []
  · have hbem : b.empty = true := by
      rw [ustring.empty, hlenb, hbe]
      rfl
    have hplus : a.plus b = a := by
      unfold ustring.plus ustring.appendStr
      rw [if_pos hbem]
    refine ⟨?_, ?_, ?_, hidentity⟩
    · rw [hplus, hlenb, hbe]
      simp
    · intro i hi
      rw [hplus]
    · intro i hi
      rw [hlenb, hbe] at hi
      simp at hi
  · have hbem : b.empty = false := by
      rw [ustring.empty, hlenb]
      simp [List.length_eq_zero, hbe]
    have hdropa : a._str.drop (a._str.length - 1) = [0] := by
      rw [has]
      have h1 : (as ++ [0]).length - 1 = as.length := by simp
      rw [h1, List.drop_left]
    have hstr : (a.plus b)._str = as ++ (bs ++ [0]) := by
      unfold ustring.plus ustring.appendStr
      rw [if_neg (by simp [hbem])]
      simp [has, hbs, List.dropLast_concat, hdropa]
    refine ⟨?_, ?_, ?_, hidentity⟩
    · rw [hlena, hlenb, ustring.length, hstr]
      simp
    · intro i hi
      rw [hlena] at hi
      rw [ustring.get, ustring.get, hstr, has,
        getD_append_left _ _ _ hi, getD_append_left _ _ _ hi]
    · intro i hi
      rw [ustring.get, ustring.get, hstr, hbs, hlena, getD_append_add]

theorem concat_spec_witness :
    (ustring.fromUnits [1, 2, 0]).sentinelInv
    ∧ (ustring.fromUnits [3, 0]).sentinelInv
    ∧ (((ustring.fromUnits [1, 2, 0]).plus (ustring.fromUnits [3, 0])).length
        = (ustring.fromUnits [1, 2, 0]).length + (ustring.fromUnits [3, 0]).length
      ∧ (∀ i, i < (ustring.fromUnits [1, 2, 0]).length →
          ((ustring.fromUnits [1, 2, 0]).plus (ustring.fromUnits [3, 0])).get i
            = (ustring.fromUnits [1, 2, 0]).get i)
      ∧ (∀ i, i < (ustring.fromUnits [3, 0]).length →
          ((ustring.fromUnits [1, 2, 0]).plus (ustring.fromUnits [3, 0])).get
              ((ustring.fromUnits [1, 2, 0]).length + i)
            = (ustring.fromUnits [3, 0]).get i)
      ∧ ((ustring.fromUnits [1, 2, 0]).plus ustring.emptyStr).eqOp
          (ustring.fromUnits [1, 2, 0]) = true) :=
  ⟨by decide, by decide,
    concat_spec (ustring.fromUnits [1, 2, 0]) (ustring.fromUnits [3, 0])
      (by decide) (by decide)⟩

/-! ### C6 and C10: MakeStandardString -/

theorem encode_map_getD (u : ustring) (k i : Nat) (hi : i < k) :
    ((List.range k).map (fun c =>
        let curr := u.get c
        if curr > 0xff then (63 : Nat) else curr % 256)).getD i 0
      = if 0xff < u.get i then 63 else u.get i % 256 := by
  rw [List.getD_eq_getElem?_getD, List.getElem?_map, List.getElem?_range hi]
  rfl

/-- Truncation of a narrowed byte buffer at the first zero byte: if the
generator is non-zero before index k and zero at k, the C-string read stops
after the first k bytes. -/
theorem takeWhile_map_range_zero (g : Nat → Nat) (len k : Nat) (hk : k < len)
    (hgk : g k = 0) (hg : ∀ j, j < k → g j ≠ 0) :
    ((List.range len).map g ++ [0]).takeWhile (fun b => b != 0)
      = (List.range k).map g := by
  have hsplit : List.range len
      = List.range k ++ List.map (fun x => k + x) (List.range (len - k)) := by
    rw [← List.range_add]
    congr 1
    omega
  have hlk : len - k = (len - k - 1) + 1 := by omega
  rw [hsplit, List.map_append, hlk, List.range_succ_eq_map]
  simp only [List.map_cons, Nat.add_zero, hgk, List.cons_append, List.append_assoc]
  exact takeWhile_append_zero _ rfl _ _ (by
    intro x hx
    simp only [List.mem_map, List.mem_range] at hx
    obtain ⟨j, hj, rfl⟩ := hx
    exact bne_iff_ne.mpr (hg j hj))

/-- C6 counterexample: the buffer built by appending unit 0 and then
unit 65 to the empty buffer has logical units 0, 65; the claimed encoding
narrows each unit in order, giving the bytes 0, 65, but the code truncates
at the zero and returns no bytes at all. -/
theorem encode_each_unit_claim_cex :
    ¬ (MakeStandardString ((ustring.emptyStr.appendUnit 0).appendUnit 65)
        = [0, 65]) := by decide

/-- C6 (amended): encode never fails; for every buffer whose logical units
are all non-zero, the result has one byte per unit, the byte at index i
being the replacement byte of the question mark when the unit exceeds 0xFF
and the narrowed unit otherwise — in particular the unit 0x4E2D yields the
question mark.  When some unit is zero the result is instead truncated at
the first zero unit. -/
theorem encode_nonzero_units_spec (u : ustring)
    (hz : ∀ i, i < u.length → u.get i ≠ 0) :
    (MakeStandardString u).length = u.length
    ∧ ∀ i, i < u.length → (MakeStandardString u).getD i 0
        = if 0xff < u.get i then 63 else u.get i % 256 := by
  have hall : ∀ x ∈ (List.range u.length).map (fun c =>
      let curr := u.get c
      if curr > 0xff then (63 : Nat) else curr % 256), (x != 0) = true := by
    intro x hx
    simp only [List.mem_map, List.mem_range] at hx
    obtain ⟨c, hc, rfl⟩ := hx
    exact narrow_ne_zero _ (hz c hc)
  have hms : MakeStandardString u = (List.range u.length).map (fun c =>
      let curr := u.get c
      if curr > 0xff then (63 : Nat) else curr % 256) := by
    unfold MakeStandardString
    exact takeWhile_append_zero _ rfl _ [] hall
  constructor
  · simp [hms]
  · intro i hi
    rw [hms, encode_map_getD u u.length i hi]

theorem encode_nonzero_units_spec_witness :
    (∀ i, i < (ustring.fromUnits [0x4E2D, 65, 0]).length →
      (ustring.fromUnits [0x4E2D, 65, 0]).get i ≠ 0)
    ∧ ((MakeStandardString (ustring.fromUnits [0x4E2D, 65, 0])).length
        = (ustring.fromUnits [0x4E2D, 65, 0]).length
      ∧ ∀ i, i < (ustring.fromUnits [0x4E2D, 65, 0]).length →
          (MakeStandardString (ustring.fromUnits [0x4E2D, 65, 0])).getD i 0
            = if 0xff < (ustring.fromUnits [0x4E2D, 65, 0]).get i
              then 63 else (ustring.fromUnits [0x4E2D, 65, 0]).get i % 256) :=
  ⟨by decide, encode_nonzero_units_spec (ustring.fromUnits [0x4E2D, 65, 0]) (by decide)⟩

/-- C10: when a buffer contains an interior zero unit at index k (the first
such index), MakeStandardString returns exactly the bytes narrowed from the
units before index k: the C-string constructor stops at the zero byte, so
the result is truncated there rather than one byte per logical unit. -/
theorem encode_truncates_at_zero (u : ustring) (k : Nat)
    (hk : k < u.length) (h0 : u.get k = 0)
    (hfirst : ∀ j, j < k → u.get j ≠ 0) :
    MakeStandardString u
      = (List.range k).map (fun i => if 0xff < u.get i then 63 else u.get i % 256)
    ∧ (MakeStandardString u).length = k := by
  have hmain : MakeStandardString u
      = (List.range k).map (fun i => if 0xff < u.get i then 63 else u.get i % 256) := by
    unfold MakeStandardString
    exact takeWhile_map_range_zero _ u.length k hk (by simp [h0])
      (fun j hj => bne_iff_ne.mp (narrow_ne_zero _ (hfirst j hj)))
  exact ⟨hmain, by simp [hmain]⟩

theorem encode_truncates_at_zero_witness :
    1 < (((ustring.emptyStr.appendUnit 5).appendUnit 0).appendUnit 66).length
    ∧ (((ustring.emptyStr.appendUnit 5).appendUnit 0).appendUnit 66).get 1 = 0
    ∧ (∀ j, j < 1 →
        (((ustring.emptyStr.appendUnit 5).appendUnit 0).appendUnit 66).get j ≠ 0)
    ∧ (MakeStandardString (((ustring.emptyStr.appendUnit 5).appendUnit 0).appendUnit 66)
        = (List.range 1).map (fun i =>
            if 0xff < (((ustring.emptyStr.appendUnit 5).appendUnit 0).appendUnit 66).get i
            then 63
            else (((ustring.emptyStr.appendUnit 5).appendUnit 0).appendUnit 66).get i % 256)
      ∧ (MakeStandardString
          (((ustring.emptyStr.appendUnit 5).appendUnit 0).appendUnit 66)).length = 1) :=
  ⟨by decide, by decide, by decide,
    encode_truncates_at_zero (((ustring.emptyStr.appendUnit 5).appendUnit 0).appendUnit 66)
      1 (by decide) (by decide) (by decide)⟩

/-! ### C9 -/

/-- Case analysis of the single-unit search loop: either no traversed unit
matches and the loop falls through to npos, or it stops at the first match,
returning the start index plus the offset of that match. -/
theorem findCharLoop_cases (c : Nat) (l : List Nat) : ∀ j : Nat,
    (ustring.findCharLoop c l j = ustring.npos
      ∧ ∀ i, i < l.length → l.getD i 0 ≠ c)
    ∨ (∃ i, i < l.length ∧ l.getD i 0 = c
        ∧ (∀ i', i' < i → l.getD i' 0 ≠ c)
        ∧ ustring.findCharLoop c l j = j + i) := by
  induction l with
  | nil =>
    intro j
    left
    exact ⟨rfl, by simp⟩
  | cons a rest ih =>
    intro j
    by_cases hac : a = c
    · right
      refine ⟨0, by simp, by simpa using hac, by omega, ?_⟩
      simp [ustring.findCharLoop, hac]
    · rcases ih (j + 1) with ⟨hnp, hall⟩ | ⟨i, hi, hic, hmin, hres⟩
      · left
        constructor
        · simp [ustring.findCharLoop, hac, hnp]
        · intro i hi
          cases i with
          | zero => simpa using hac
          | succ i =>
            rw [List.getD_cons_succ]
            exact hall i (by simpa using hi)
      · right
        refine ⟨i + 1, by simpa using hi, by simpa using hic, ?_, ?_⟩
        · intro i' hi'
          cases i' with
          | zero => simpa using hac
          | succ i' =>
            rw [List.getD_cons_succ]
            exact hmin i' (by omega)
        · rw [show j + (i + 1) = (j + 1) + i by omega]
          simp [ustring.findCharLoop, hac, hres]

/-- C9: find(c, from) returns the smallest index k with
from ≤ k < length() whose unit equals c when one exists, and npos when no
unit in [from, length()) equals c. -/
theorem find_unit_spec (u : ustring) (c f : Nat) :
    ((∃ k, f ≤ k ∧ k < u.length ∧ u.get k = c) →
      f ≤ u.findChar c f ∧ u.findChar c f < u.length
        ∧ u.get (u.findChar c f) = c
        ∧ ∀ j, f ≤ j → j < u.findChar c f → u.get j ≠ c)
    ∧ ((∀ k, f ≤ k → k < u.length → u.get k ≠ c) →
        u.findChar c f = ustring.npos) := by
  have hlistlen : ((u._str.take u.length).drop f).length = u.length - f := by
    simp only [List.length_drop, List.length_take, ustring.length]
    omega
  have hlist : ∀ i, i < u.length - f →
      ((u._str.take u.length).drop f).getD i 0 = u.get (f + i) := by
    intro i hi
    rw [getD_drop_add, getD_take_lt, ustring.get]
    simp only [ustring.length] at hi ⊢
    omega
  rcases findCharLoop_cases c ((u._str.take u.length).drop f) f with
    ⟨hnp, hall⟩ | ⟨i, hi, hic, hmin, hres⟩
  · constructor
    · rintro ⟨k, hfk, hk, hkc⟩
      exfalso
      have hik : k - f < u.length - f := by omega
      have := hall (k - f) (by rw [hlistlen]; exact hik)
      rw [hlist (k - f) hik] at this
      rw [show f + (k - f) = k by omega] at this
      exact this hkc
    · intro _
      exact hnp
  · rw [hlistlen] at hi
    have hfound : u.findChar c f = f + i := hres
    have hget : u.get (f + i) = c := by
      rw [← hlist i hi]
      exact hic
    constructor
    · intro _
      refine ⟨by omega, by rw [hfound]; omega, by rw [hfound]; exact hget, ?_⟩
      intro j hfj hj
      rw [hfound] at hj
      have hji : j - f < i := by omega
      have := hmin (j - f) hji
      rw [hlist (j - f) (by omega)] at this
      rw [show f + (j - f) = j by omega] at this
      exact this
    · intro hnone
      exact absurd hget (hnone (f + i) (by omega) (by omega))

theorem find_unit_spec_witness :
    0 ≤ (ustring.fromUnits [5, 7, 0]).findChar 7 0
    ∧ (ustring.fromUnits [5, 7, 0]).findChar 7 0 < (ustring.fromUnits [5, 7, 0]).length
    ∧ (ustring.fromUnits [5, 7, 0]).get ((ustring.fromUnits [5, 7, 0]).findChar 7 0) = 7
    ∧ ∀ j, 0 ≤ j → j < (ustring.fromUnits [5, 7, 0]).findChar 7 0 →
        (ustring.fromUnits [5, 7, 0]).get j ≠ 7 :=
  (find_unit_spec (ustring.fromUnits [5, 7, 0]) 7 0).1 ⟨1, by decide, by decide, by decide⟩

end VtUtils
